import Mathlib

/-!
Verification of the reactive-stream core of the repository
(`src/core/reactive.ts`): a shallow embedding in Lean 4 of the
Observer / Subject / Subscription / Observable types, of the operators
`take`, `map`, `mergeMap`, `join` and of the creation functions
`empty`, `of`, `from`, `range`, `interval`, `merge`.

The host model is the single-threaded event loop: a `setTimeout(.., 0)`
callback ("task") runs after the subscribing code has returned, and
tasks run whole, in the order they were registered (FIFO).  An execution
delivers a trace of `Event`s to the downstream subscriber; mutable local
variables of the TypeScript closures (`i`, `isdisposed`, `completeCount`,
`subscriptions`, `values`) become explicit state threaded through the
Lean functions.
-/

set_option autoImplicit false

namespace Reactive

universe u

/-- One call delivered to an `Observer`'s callbacks: `next(value)`,
`error(message)` or `complete()` (reactive.ts lines 8-10, 15-39). -/
inductive Event (α : Type) where
  | next (v : α)
  | error (msg : String)
  | complete
  deriving DecidableEq

/-- Number of `next` calls in a trace. -/
def countNext {α : Type} : List (Event α) → Nat
  | [] => 0
  | Event.next _ :: evs => countNext evs + 1
  | _ :: evs => countNext evs

/-- Number of `complete` calls in a trace. -/
def countComplete {α : Type} : List (Event α) → Nat
  | [] => 0
  | Event.complete :: evs => countComplete evs + 1
  | _ :: evs => countComplete evs

/-- The downstream consumer handed to `from`'s producer loop: the pair of
handlers (`next`, `complete`) that an operator (or the plain subscriber)
installs on the upstream observable, together with the operator's local
mutable state `σ`.  `onNext` returns the new state, the events the handler
emitted downstream, and whether the handler called `dispose()` on the
upstream subscription during its run.  `onComplete` returns the events
emitted on upstream completion.  (`from` never invokes the error handler:
its deferred task, reactive.ts lines 344-350, only calls `observer.next`
and `observer.complete`.) -/
structure Sink (α β σ : Type) where
  onNext : σ → α → σ × List (Event β) × Bool
  onComplete : σ → List (Event β)

/-- The deferred task of `from(values)` (reactive.ts lines 344-350) run
against a downstream sink: `values.forEach(v => { if (!isdisposed)
observer.next(v) }); if (!isdisposed) observer.complete();`.  The `Bool`
argument is the captured `isdisposed` flag; a dispose request from the
sink sets it (the Subscription returned by `from`, lines 352-356, sets
`isdisposed = true`). -/
def fromTask {α β σ : Type} (sink : Sink α β σ) : List α → σ → Bool → List (Event β)
  | [], s, d => if d then [] else sink.onComplete s
  | v :: vs, s, d =>
    if d then fromTask sink vs s d
    else
      let r := sink.onNext s v
      r.2.1 ++ fromTask sink vs r.1 (d || r.2.2)

/-- The plain subscriber: `Observable.subscribe(next, error, complete)`
(reactive.ts lines 92-98) forwards each call unchanged and never disposes
mid-stream. -/
def idSink (α : Type) : Sink α α Unit where
  onNext := fun _ v => ((), [Event.next v], false)
  onComplete := fun _ => [Event.complete]

/-- Trace delivered by subscribing directly to `from(values)`
(reactive.ts lines 339-358). -/
def fromRun {α : Type} (values : List α) : List (Event α) :=
  fromTask (idSink α) values () false

/-- The handlers `take(n)` installs on its upstream (reactive.ts lines
110-137): state is the counter `i`; on a value, `if (i < n - 1)
observer.next(value); if (i === n - 1) { observer.next(value);
observer.complete(); subscription.dispose(); } i++;` — the dispose
request is the `i === n - 1` branch; on upstream completion,
`observer.complete` is forwarded.  `n` and `i` are integers, as in the
source (`take(0)` compares against `n - 1 = -1`). -/
def takeSink {α : Type} (n : Int) : Sink α α Int where
  onNext := fun i v =>
    (i + 1,
     ((if i < n - 1 then [Event.next v] else []) ++
      (if i = n - 1 then [Event.next v, Event.complete] else [])),
     decide (i = n - 1))
  onComplete := fun _ => [Event.complete]

/-- Trace delivered by subscribing to `from(values).take(n)`. -/
def fromTakeRun {α : Type} (n : Int) (values : List α) : List (Event α) :=
  fromTask (takeSink n) values 0 false

/-! ### Supporting lemmas for `from` and `take` -/

theorem fromTask_disposed {α β σ : Type} (sink : Sink α β σ) :
    ∀ (values : List α) (s : σ), fromTask sink values s true = [] := by
  intro values
  induction values with
  | nil => intro s; rfl
  | cons v vs ih => intro s; simpa [fromTask] using ih s

theorem fromRun_eq {α : Type} (values : List α) :
    fromRun values = values.map Event.next ++ [Event.complete] := by
  unfold fromRun
  induction values with
  | nil => rfl
  | cons v vs ih => simpa [fromTask, idSink] using ih

theorem fromTask_takeSink {α : Type} :
    ∀ (values : List α) (n i : Int),
      fromTask (takeSink n) values i false =
        (values.take (n - i).toNat).map Event.next ++ [Event.complete] := by
  intro values
  induction values with
  | nil => intro n i; simp [fromTask, takeSink]
  | cons v vs ih =>
    intro n i
    have hstep : fromTask (takeSink n) (v :: vs) i false =
        ((if i < n - 1 then [Event.next v] else []) ++
         (if i = n - 1 then [Event.next v, Event.complete] else [])) ++
        fromTask (takeSink n) vs (i + 1) (false || decide (i = n - 1)) := rfl
    rw [hstep]
    rcases lt_trichotomy i (n - 1) with hlt | heq | hgt
    · have hne : ¬ i = n - 1 := by omega
      have htn : (n - i).toNat = (n - (i + 1)).toNat + 1 := by omega
      rw [if_pos hlt, if_neg hne, decide_eq_false hne]
      rw [Bool.false_or, ih n (i + 1), htn]
      simp
    · have hnlt : ¬ i < n - 1 := by omega
      have htn : (n - i).toNat = 1 := by omega
      rw [if_neg hnlt, if_pos heq, decide_eq_true heq]
      rw [Bool.false_or, fromTask_disposed, htn]
      simp
    · have hnlt : ¬ i < n - 1 := by omega
      have hne : ¬ i = n - 1 := by omega
      have htn : (n - i).toNat = 0 := by omega
      have htn2 : (n - (i + 1)).toNat = 0 := by omega
      rw [if_neg hnlt, if_neg hne, decide_eq_false hne]
      rw [Bool.false_or, ih n (i + 1), htn, htn2]
      simp

theorem countNext_append {α : Type} (l1 l2 : List (Event α)) :
    countNext (l1 ++ l2) = countNext l1 + countNext l2 := by
  induction l1 with
  | nil => simp [countNext]
  | cons e l ih => cases e <;> (simp [countNext, ih]; try omega)

theorem countNext_map_next {α : Type} (vs : List α) :
    countNext (vs.map Event.next) = vs.length := by
  induction vs with
  | nil => rfl
  | cons v l ih => simp [countNext, ih]

theorem countComplete_append {α : Type} (l1 l2 : List (Event α)) :
    countComplete (l1 ++ l2) = countComplete l1 + countComplete l2 := by
  induction l1 with
  | nil => simp [countComplete]
  | cons e l ih => cases e <;> (simp [countComplete, ih]; try omega)

theorem countComplete_map_next {α : Type} (vs : List α) :
    countComplete (vs.map Event.next) = 0 := by
  induction vs with
  | nil => rfl
  | cons v l ih => simpa [countComplete] using ih

theorem list_take_min {α : Type} (n : Nat) (l : List α) :
    l.take (min n l.length) = l.take n := by
  rcases le_total n l.length with h | h
  · rw [min_eq_left h]
  · rw [min_eq_right h, List.take_length, List.take_of_length_le h]

/-- Claim C1: for every list of values and every (nonnegative) number `n`,
subscribing to `from(values).take(n)` delivers exactly
`min(n, values.length)` next calls carrying the first
`min(n, values.length)` elements of `values` in their original order,
followed by exactly one complete call, and no next, error or complete
call occurs after that completion (the delivered trace is exactly those
next events followed by the single complete event). -/
theorem c1_from_take {α : Type} (values : List α) (n : Nat) :
    fromTakeRun (n : Int) values =
      (values.take (min n values.length)).map Event.next ++ [Event.complete] ∧
    countNext (fromTakeRun (n : Int) values) = min n values.length ∧
    countComplete (fromTakeRun (n : Int) values) = 1 := by
  have h := fromTask_takeSink values (n : Int) 0
  have hn : ((n : Int) - 0).toNat = n := by omega
  rw [hn] at h
  have htr : fromTakeRun (n : Int) values =
      (values.take (min n values.length)).map Event.next ++ [Event.complete] := by
    rw [fromTakeRun, h, list_take_min]
  refine ⟨htr, ?_, ?_⟩
  · rw [htr, countNext_append, countNext_map_next, List.length_take]
    simp [countNext]
  · rw [htr, countComplete_append, countComplete_map_next]
    rfl

/-! ### `join` (reactive.ts lines 261-279)

`join()` installs on its upstream the handlers: on a value,
`values.push(value)`; on an error, `observer.error` (forwarded); on
completion, `observer.next(values); observer.complete();`.  Modeled as a
transducer over the delivered upstream event sequence, with the `values`
buffer as state. -/

def joinTrans {α : Type} : List (Event α) → List α → List (Event (List α))
  | [], _ => []
  | Event.next v :: evs, buf => joinTrans evs (buf ++ [v])
  | Event.error m :: evs, buf => Event.error m :: joinTrans evs buf
  | Event.complete :: evs, buf => Event.next buf :: Event.complete :: joinTrans evs buf

/-- Trace delivered by subscribing to `from(values).join()`: the upstream
`from` delivers its full trace (`join` never disposes it mid-stream). -/
def joinRun {α : Type} (values : List α) : List (Event (List α)) :=
  joinTrans (fromRun values) []

theorem joinTrans_map_next {α : Type} :
    ∀ (vs : List α) (buf : List α) (rest : List (Event α)),
      joinTrans (vs.map Event.next ++ rest) buf = joinTrans rest (buf ++ vs) := by
  intro vs
  induction vs with
  | nil => intro buf rest; simp
  | cons v vs ih =>
    intro buf rest
    simp only [List.map_cons, List.cons_append, joinTrans, List.append_eq]
    rw [ih (buf ++ [v]) rest]
    simp

/-- Claim C4: for every source that emits a finite sequence of values and
then completes, `join()` delivers no downstream value before the upstream
completion, then exactly one next call carrying the ordered sequence of
all upstream values, then exactly one complete call; an upstream error is
forwarded unchanged; in particular `join()` on `from([0,1,2,3])` emits
the single value `[0,1,2,3]` and then completes. -/
theorem c4_join {α : Type} (vs : List α) (m : String) :
    joinTrans (vs.map Event.next ++ [Event.complete]) [] =
      [Event.next vs, Event.complete] ∧
    joinTrans (vs.map Event.next) [] = [] ∧
    joinTrans (vs.map Event.next ++ [Event.error m]) [] = [Event.error m] ∧
    joinRun [0, 1, 2, 3] = [Event.next [0, 1, 2, 3], Event.complete] := by
  refine ⟨?_, ?_, ?_, ?_⟩
  · rw [joinTrans_map_next]; simp [joinTrans]
  · have h := joinTrans_map_next vs [] []
    simpa using h
  · rw [joinTrans_map_next]; simp [joinTrans]
  · rfl

/-! ### `map` (reactive.ts lines 186-200)

`map(fn)` installs on its upstream: on a value,
`observer.next(map(value))`; errors and completion are forwarded
unchanged (`observer.error`, `observer.complete`).  It keeps no state and
never disposes mid-stream, so the delivered downstream sequence is this
pointwise transduction of the delivered upstream sequence. -/

def mapTrans {α β : Type} (f : α → β) : List (Event α) → List (Event β)
  | [] => []
  | Event.next v :: evs => Event.next (f v) :: mapTrans f evs
  | Event.error m :: evs => Event.error m :: mapTrans f evs
  | Event.complete :: evs => Event.complete :: mapTrans f evs

/-- Claim C6: for every source (delivering any event sequence) and all
pure functions `f` and `g`, `source.map(f).map(g)` delivers exactly the
same sequence of values, errors and completions as
`source.map(v => g(f(v)))`. -/
theorem c6_map_comp {α β γ : Type} (f : α → β) (g : β → γ) :
    ∀ evs : List (Event α),
      mapTrans g (mapTrans f evs) = mapTrans (fun v => g (f v)) evs := by
  intro evs
  induction evs with
  | nil => rfl
  | cons e evs ih => cases e <;> simp [mapTrans, ih]

/-! ### `range` (reactive.ts lines 367-375)

`range(min, max)` builds `values` with the loop
`for (let i = min; i <= max; i++) values.push(i)` and returns
`from(values)`.  The loop body runs `(max + 1 - min)` times (clamped at
zero) with `i` starting at `min`; `rangeGo` is that loop with the
iteration count made explicit. -/

def rangeGo : Nat → Int → List Int
  | 0, _ => []
  | fuel + 1, i => i :: rangeGo fuel (i + 1)

/-- The `values` array built by `range(min, max)`'s loop. -/
def rangeValues (minV maxV : Int) : List Int :=
  rangeGo (maxV + 1 - minV).toNat minV

/-- Trace delivered by subscribing to `range(min, max)` (which delegates
to `from(values)`). -/
def rangeRun (minV maxV : Int) : List (Event Int) :=
  fromRun (rangeValues minV maxV)

theorem rangeGo_eq :
    ∀ (fuel : Nat) (i : Int),
      rangeGo fuel i = (List.range fuel).map (fun k : Nat => i + (k : Int)) := by
  intro fuel
  induction fuel with
  | zero => intro i; rfl
  | succ f ih =>
    intro i
    rw [rangeGo, ih (i + 1), List.range_succ_eq_map]
    simp only [List.map_cons, List.map_map, Nat.cast_zero, add_zero, List.cons.injEq]
    refine ⟨trivial, List.map_congr_left ?_⟩
    intro k _
    simp only [Function.comp_apply, Nat.succ_eq_add_one]
    push_cast
    ring

/-- Claim C7 (amended): for all integers `min ≤ max + 1`, subscribing to
`range(min, max)` delivers exactly `max - min + 1` next calls carrying
the integers `min, min+1, ..., max` in ascending order, followed by one
completion.  (For `min > max + 1` the code delivers zero next calls,
while the original claim would demand a negative count.) -/
theorem c7_range (minV maxV : Int) (h : minV ≤ maxV + 1) :
    rangeRun minV maxV =
      ((List.range (maxV - minV + 1).toNat).map
        (fun k : Nat => minV + (k : Int))).map Event.next ++ [Event.complete] ∧
    (countNext (rangeRun minV maxV) : Int) = maxV - minV + 1 ∧
    countComplete (rangeRun minV maxV) = 1 := by
  have hfuel : (maxV + 1 - minV).toNat = (maxV - minV + 1).toNat := by omega
  have htr : rangeRun minV maxV =
      ((List.range (maxV - minV + 1).toNat).map
        (fun k : Nat => minV + (k : Int))).map Event.next ++ [Event.complete] := by
    rw [rangeRun, fromRun_eq, rangeValues, hfuel, rangeGo_eq]
  refine ⟨htr, ?_, ?_⟩
  · rw [htr, countNext_append, countNext_map_next]
    have h0 : countNext ([Event.complete] : List (Event Int)) = 0 := rfl
    rw [h0, Nat.add_zero, List.length_map, List.length_range]
    omega
  · rw [htr, countComplete_append, countComplete_map_next]
    rfl

/-- Witness for Claim C7's amended theorem at `range(4, 8)`: the claim's
own example, `4, 5, 6, 7, 8` then complete. -/
theorem c7_range_witness :
    (4 : Int) ≤ 8 + 1 ∧
    rangeRun 4 8 =
      [Event.next 4, Event.next 5, Event.next 6, Event.next 7, Event.next 8,
       Event.complete] := by
  refine ⟨by norm_num, ?_⟩
  have h := (c7_range 4 8 (by norm_num)).1
  rw [h]
  decide

/-- Counterexample for Claim C7 as stated: at `range(5, 3)` the code
delivers zero next calls, while `max - min + 1 = -1 ≠ 0`. -/
theorem c7_range_counterexample :
    countNext (rangeRun 5 3) = 0 ∧ ¬ ((3 : Int) - 5 + 1 = 0) := by
  decide

/-! ### `merge` (reactive.ts lines 415-442)

`merge(...observables)` iterates the sources, pushing
`source.subscribe(observer.next, observer.error, () => { completeCount++;
if (completeCount === subscriptions.length) observer.complete(); })` onto
`subscriptions`.  Crucially the push happens only after `subscribe`
returns, so a source that completes synchronously at subscribe time (such
as `empty()`, reactive.ts line 297) runs the completion handler while its
own subscription — and those of all later sources — are not yet counted
in `subscriptions.length`.  Sources here are either `empty()` (complete
synchronously at subscribe) or `from(vs)` (emit `vs` then complete in a
deferred task; tasks run after the subscribe loop, in registration
order). -/

inductive Src (α : Type) where
  | emptySrc
  | fromSrc (vs : List α)

/-- The mutable locals of `merge`'s subscribe closure: the current
`subscriptions.length`, the `completeCount`, the deferred `from`-tasks
registered so far (in order), and the events delivered downstream. -/
structure MergeState (α : Type) where
  subsLen : Nat
  completeCount : Nat
  queue : List (List α)
  out : List (Event α)
  deriving DecidableEq

/-- `merge`'s per-source completion handler (reactive.ts lines 426-431):
`completeCount++; if (completeCount === subscriptions.length)
observer.complete();`. -/
def mergeOnComplete {α : Type} (s : MergeState α) : MergeState α :=
  { s with
    completeCount := s.completeCount + 1,
    out := s.out ++
      (if s.completeCount + 1 = s.subsLen then [Event.complete] else []) }

/-- One iteration of `merge`'s subscribe loop (reactive.ts lines
421-434): `empty()` completes synchronously during `subscribe` — before
its subscription is pushed; `from(vs)` registers its deferred task and
returns, then its subscription is pushed. -/
def mergeSubscribeStep {α : Type} (s : MergeState α) : Src α → MergeState α
  | Src.emptySrc =>
    let s1 := mergeOnComplete s
    { s1 with subsLen := s1.subsLen + 1 }
  | Src.fromSrc vs =>
    { s with queue := s.queue ++ [vs], subsLen := s.subsLen + 1 }

/-- The deferred task of one `from(vs)` source under `merge`: emit every
value to `observer.next`, then run `merge`'s completion handler.  (`merge`
never disposes its sources here, so `from`'s `isdisposed` checks all
pass.) -/
def mergeTask {α : Type} (s : MergeState α) (vs : List α) : MergeState α :=
  mergeOnComplete { s with out := s.out ++ vs.map Event.next }

/-- Trace delivered by subscribing to `merge(...sources)`: first the
synchronous subscribe loop, then the deferred tasks in registration
order. -/
def mergeRun {α : Type} (srcs : List (Src α)) : List (Event α) :=
  let s1 := srcs.foldl mergeSubscribeStep ⟨0, 0, [], []⟩
  (s1.queue.foldl mergeTask s1).out

/-- Claim C3 is violated by the code: subscribing to
`merge(from([1]), empty())` delivers `complete`, then `next 1`, then a
second `complete` — the downstream complete fires before `from([1])` has
emitted or completed (when `empty()` completes synchronously,
`completeCount = 1` already equals the still-growing
`subscriptions.length = 1`), and it fires twice rather than exactly
once.  This contradicts the documented behavior (single completion after
every source has completed, counter compared against the total source
count). -/
theorem c3_merge_sync_empty :
    mergeRun [Src.fromSrc [1], Src.emptySrc] =
      [Event.complete, Event.next 1, Event.complete] ∧
    countComplete (mergeRun [Src.fromSrc [1], Src.emptySrc]) = 2 := by
  decide

/-! ### `mergeMap` (reactive.ts lines 211-250)

`mergeMap(fn)` subscribes to the outer source, pushing that subscription
onto `subscriptions`; for each outer value it subscribes to
`mergeMap(value)` (the inner observable) with handlers that forward
values downstream and count completions, pushing the inner subscription
after `subscribe` returns.  The shared completion handler (lines 243-248)
is `completeCount++; if (completeCount === subscriptions.length)
observer.complete();`.  Here the outer source is `from(values)` (its
subscription is pushed before its deferred task runs) and each inner
observable is either `empty()` (completes synchronously during its
`subscribe`, before it is pushed) or `from(ws)` (emits in its own
deferred task, queued after the outer task). -/

inductive InnerSrc (β : Type) where
  | emptyI
  | fromI (ws : List β)

/-- The mutable locals of `mergeMap`'s subscribe closure, as for
`merge`: `subscriptions.length`, `completeCount`, the queued deferred
inner tasks, and the delivered downstream events. -/
structure MMState (β : Type) where
  subsLen : Nat
  completeCount : Nat
  queue : List (List β)
  out : List (Event β)
  deriving DecidableEq

/-- `mergeMap`'s completion handler (reactive.ts lines 243-248). -/
def mmOnComplete {β : Type} (s : MMState β) : MMState β :=
  { s with
    completeCount := s.completeCount + 1,
    out := s.out ++
      (if s.completeCount + 1 = s.subsLen then [Event.complete] else []) }

/-- `mergeMap`'s outer value handler (reactive.ts lines 219-227):
subscribe to `fn(value)` — an inner `empty()` runs the completion
handler synchronously before its subscription is pushed; an inner
`from(ws)` queues its deferred task — then push the inner
subscription. -/
def mmOuterNext {α β : Type} (fn : α → InnerSrc β) (s : MMState β) (v : α) :
    MMState β :=
  match fn v with
  | InnerSrc.emptyI =>
    let s1 := mmOnComplete s
    { s1 with subsLen := s1.subsLen + 1 }
  | InnerSrc.fromI ws =>
    { s with queue := s.queue ++ [ws], subsLen := s.subsLen + 1 }

/-- State after `mergeMap`'s subscribe returned: the outer subscription
has been pushed (`subscriptions.length = 1`), nothing has completed,
nothing delivered. -/
def mmInit (β : Type) : MMState β := ⟨1, 0, [], []⟩

/-- The outer `from(values)` task up to (not including) the outer
completion: deliver each value to `mmOuterNext`. -/
def mmValuePhase {α β : Type} (fn : α → InnerSrc β) (values : List α)
    (s : MMState β) : MMState β :=
  values.foldl (mmOuterNext fn) s

/-- The deferred task of one inner `from(ws)`: emit every value
downstream, then run the completion handler. -/
def mmInnerTask {β : Type} (s : MMState β) (ws : List β) : MMState β :=
  mmOnComplete { s with out := s.out ++ ws.map Event.next }

/-- Trace delivered by subscribing to `from(values).mergeMap(fn)`: the
outer task (all values, then the outer completion handler), then the
queued inner tasks in registration order. -/
def mmRun {α β : Type} (values : List α) (fn : α → InnerSrc β) :
    List (Event β) :=
  let s1 := mmOnComplete (mmValuePhase fn values (mmInit β))
  (s1.queue.foldl mmInnerTask s1).out

/-- Claim C2 is false as stated: with outer source `from([1, 2])` and
`fn = _ => empty()`, each inner `empty()` completes synchronously while
`subscriptions.length` still equals the completions counted so far, so a
downstream `complete` is delivered during the outer value phase — before
the outer source has completed (two completes fire before the outer
completion handler runs, and a third at the outer completion). -/
theorem c2_mergeMap_counterexample :
    (mmValuePhase (fun _ : Nat => InnerSrc.emptyI) [1, 2] (mmInit Nat)).out =
      [Event.complete, Event.complete] ∧
    mmRun [1, 2] (fun _ : Nat => InnerSrc.emptyI (β := Nat)) =
      [Event.complete, Event.complete, Event.complete] := by
  decide

theorem mmValuePhase_fromI {α β : Type} (g : α → List β) :
    ∀ (values : List α) (s : MMState β),
      mmValuePhase (fun v => InnerSrc.fromI (g v)) values s =
        { s with subsLen := s.subsLen + values.length,
                 queue := s.queue ++ values.map g } := by
  intro values
  induction values with
  | nil => intro s; cases s; simp [mmValuePhase]
  | cons v vs ih =>
    intro s
    have hstep : mmValuePhase (fun v => InnerSrc.fromI (g v)) (v :: vs) s =
        mmValuePhase (fun v => InnerSrc.fromI (g v)) vs
          { s with queue := s.queue ++ [g v], subsLen := s.subsLen + 1 } := rfl
    rw [hstep, ih]
    cases s
    simp
    omega

theorem mmInnerPhase_eq {β : Type} :
    ∀ (qs : List (List β)) (s : MMState β),
      qs ≠ [] →
      s.subsLen = s.completeCount + qs.length →
      (qs.foldl mmInnerTask s).out =
        s.out ++ (qs.map fun ws => ws.map Event.next).flatten ++
          [Event.complete] := by
  intro qs
  induction qs with
  | nil => intro s h _; exact absurd rfl h
  | cons ws rest ih =>
    intro s _ hlen
    by_cases hr : rest = []
    · subst hr
      have hfire : s.completeCount + 1 = s.subsLen := by
        simp at hlen
        omega
      simp [mmInnerTask, mmOnComplete, hfire]
    · have hrest : 0 < rest.length := List.length_pos.mpr hr
      have hnofire : ¬ s.completeCount + 1 = s.subsLen := by
        simp at hlen
        omega
      have hstep : (ws :: rest).foldl mmInnerTask s =
          rest.foldl mmInnerTask (mmInnerTask s ws) := rfl
      have hlen2 : (mmInnerTask s ws).subsLen =
          (mmInnerTask s ws).completeCount + rest.length := by
        simp [mmInnerTask, mmOnComplete] at *
        omega
      rw [hstep, ih (mmInnerTask s ws) hr hlen2]
      simp [mmInnerTask, mmOnComplete, hnofire]

/-- Claim C2 (amended): the no-premature-completion property holds
provided every inner observable delivers its completion only after its
subscription is registered.  With outer source `from(values)` and every
inner of the form `from(g v)`, the downstream trace is exactly all inner
values, in subscription (arrival) order, followed by a single `complete`
— delivered only after the outer source and every inner have completed.
An inner that completes synchronously during subscribe (`empty()`)
violates the original claim (see the counterexample). -/
theorem c2_mergeMap_deferred {α β : Type} (values : List α) (g : α → List β) :
    mmRun values (fun v => InnerSrc.fromI (g v)) =
      (values.map fun v => (g v).map Event.next).flatten ++ [Event.complete] := by
  cases values with
  | nil => simp [mmRun, mmValuePhase, mmOnComplete, mmInit]
  | cons v vs =>
    rw [mmRun, mmValuePhase_fromI g (v :: vs) (mmInit β)]
    have h1 : mmOnComplete
        ({ mmInit β with
           subsLen := (mmInit β).subsLen + (v :: vs).length,
           queue := (mmInit β).queue ++ (v :: vs).map g }) =
        ⟨1 + (vs.length + 1), 1, (v :: vs).map g, []⟩ := by
      simp [mmOnComplete, mmInit]
    rw [h1]
    have h2 := mmInnerPhase_eq ((v :: vs).map g)
      ⟨1 + (vs.length + 1), 1, (v :: vs).map g, []⟩
      (by simp) (by simp)
    simpa using h2

/-! ### `Subject` (reactive.ts lines 44-77)

`Subject` holds `observers: Observer[]`; `subscribe` constructs a fresh
`Observer` (a fresh reference), pushes it, and returns a Subscription
whose disposal filters the collection by reference identity
(`obs !== observer`).  Fresh references are modeled by an increasing
counter: each subscribe hands out the next id, so ids in the collection
are exactly the registered observers, and reference identity is id
equality.  `next(value)` iterates the current collection in insertion
order, invoking each observer's `next` with the value; a delivery is
recorded as the pair (observer id, value). -/

structure SubjectState where
  observers : List Nat
  nextId : Nat
  deriving DecidableEq

/-- `Subject.subscribe` (reactive.ts lines 65-76): append a fresh
observer, return (new state, the handle identifying that observer, i.e.
the Subscription's captured reference). -/
def subjectSubscribe (s : SubjectState) : SubjectState × Nat :=
  ({ observers := s.observers ++ [s.nextId], nextId := s.nextId + 1 }, s.nextId)

/-- `Subject.next(value)` (reactive.ts lines 47-49): broadcast to the
current observer collection in order; each delivery invokes that
observer's next callback with `v`. -/
def subjectNextDeliveries {α : Type} (s : SubjectState) (v : α) :
    List (Nat × α) :=
  s.observers.map (fun id => (id, v))

/-- Disposing the Subscription returned by `Subject.subscribe`
(reactive.ts lines 73-75): `this.observers = this.observers.filter(obs
=> obs !== observer)`. -/
def subjectDispose (id : Nat) (s : SubjectState) : SubjectState :=
  { s with observers := s.observers.filter (fun obs => obs ≠ id) }

/-- Invariant of the id model: every registered observer was handed out
by an earlier `subscribe`, so its id is below the fresh counter.  Holds
for a newly created Subject (`observers = []`) and is preserved by every
operation. -/
def SubjectWf (s : SubjectState) : Prop :=
  ∀ id ∈ s.observers, id < s.nextId

instance (s : SubjectState) : Decidable (SubjectWf s) := by
  unfold SubjectWf
  infer_instance

theorem filter_ne_of_lt (l : List Nat) (a : Nat) (h : ∀ id ∈ l, id < a) :
    l.filter (fun x => x ≠ a) = l := by
  refine List.filter_eq_self.mpr ?_
  intro x hx
  simpa using Nat.ne_of_lt (h x hx)

/-- Claim C5: after two subscriptions `a` then `b` on any well-formed
Subject, (1) both are registered, in insertion order; (2) every
subsequent `next(v)` delivers `v` to every registered observer in
insertion order — in particular to both `a` and `b`, `a` first; (3) the
later subscriber `b` was not in the collection before its subscribe, so
broadcasts issued earlier did not reach it (no replay), and likewise `a`
before its own subscribe; (4) disposing `a`'s Subscription removes
exactly `a`, leaving the other observers, so a later `next(v)` delivers
to exactly the remaining observers, `b` included. -/
theorem c5_subject {α : Type} (s : SubjectState) (h : SubjectWf s) (v : α) :
    (subjectSubscribe (subjectSubscribe s).1).1.observers =
      s.observers ++ [(subjectSubscribe s).2,
                      (subjectSubscribe (subjectSubscribe s).1).2] ∧
    subjectNextDeliveries (subjectSubscribe (subjectSubscribe s).1).1 v =
      (s.observers ++ [(subjectSubscribe s).2,
                       (subjectSubscribe (subjectSubscribe s).1).2]).map
        (fun id => (id, v)) ∧
    (subjectSubscribe (subjectSubscribe s).1).2 ∉
      (subjectSubscribe s).1.observers ∧
    (subjectSubscribe s).2 ∉ s.observers ∧
    (subjectDispose (subjectSubscribe s).2
        (subjectSubscribe (subjectSubscribe s).1).1).observers =
      s.observers ++ [(subjectSubscribe (subjectSubscribe s).1).2] ∧
    subjectNextDeliveries
        (subjectDispose (subjectSubscribe s).2
          (subjectSubscribe (subjectSubscribe s).1).1) v =
      (s.observers ++ [(subjectSubscribe (subjectSubscribe s).1).2]).map
        (fun id => (id, v)) := by
  have hobs : (subjectSubscribe (subjectSubscribe s).1).1.observers =
      s.observers ++ [s.nextId, s.nextId + 1] := by
    simp [subjectSubscribe]
  have hb : (subjectSubscribe (subjectSubscribe s).1).2 = s.nextId + 1 := rfl
  have ha : (subjectSubscribe s).2 = s.nextId := rfl
  have hdisp : (subjectDispose (subjectSubscribe s).2
      (subjectSubscribe (subjectSubscribe s).1).1).observers =
      s.observers ++ [s.nextId + 1] := by
    rw [subjectDispose, hobs, ha, List.filter_append,
      filter_ne_of_lt s.observers s.nextId h]
    simp
  refine ⟨by rw [hobs, ha, hb], ?_, ?_, ?_, by rw [hdisp, hb], ?_⟩
  · rw [subjectNextDeliveries, hobs, ha, hb]
  · rw [hb]
    simp only [subjectSubscribe, List.mem_append, List.mem_singleton]
    push_neg
    exact ⟨fun hmem => by have := h _ hmem; omega, by omega⟩
  · rw [ha]
    intro hmem
    have := h _ hmem
    omega
  · rw [subjectNextDeliveries, hdisp, hb]

/-- Witness for Claim C5 on a fresh Subject (`observers = []`,
counter 0) broadcasting the value 42. -/
theorem c5_subject_witness :
    SubjectWf ⟨[], 0⟩ ∧
    subjectNextDeliveries (subjectSubscribe (subjectSubscribe ⟨[], 0⟩).1).1
      (42 : Nat) = [(0, 42), (1, 42)] ∧
    (subjectDispose 0 (subjectSubscribe (subjectSubscribe ⟨[], 0⟩).1).1).observers
      = [1] := by
  have h := c5_subject (⟨[], 0⟩ : SubjectState) (by decide) (42 : Nat)
  exact ⟨by decide, by simpa using h.2.1, by simpa using h.2.2.2.2.1⟩

/-! ### Disposal guards (C8, C9)

The base `Subscription` (reactive.ts lines 82-84) wraps one disposal
action and runs it on every call — no guard.  Each creation function
returns a Subscription guarded by a local `isdisposed` flag:
`() => { if (!isdisposed) { <teardown>; isdisposed = true; } }`
(`empty` lines 299-303, `of` lines 324-328, `from` lines 352-356 with no
teardown beyond the flag; `interval` lines 394-399 clearing the timer;
`fromEvent` lines 461-466 removing the listener).  The teardown
executions are counted to show they run at most once. -/

structure FlagState where
  isdisposed : Bool
  deriving DecidableEq

/-- Dispose of the Subscription returned by `empty()` (lines 299-303). -/
def emptyDispose (s : FlagState) : FlagState :=
  if s.isdisposed then s else { isdisposed := true }

/-- Dispose of the Subscription returned by `of(value)` (lines 324-328):
sets the flag only; it does not cancel the pending timer. -/
def ofDispose (s : FlagState) : FlagState :=
  if s.isdisposed then s else { isdisposed := true }

/-- Dispose of the Subscription returned by `from(values)` (lines
352-356): sets the flag consulted by `from`'s deferred loop. -/
def fromDispose (s : FlagState) : FlagState :=
  if s.isdisposed then s else { isdisposed := true }

structure IntervalState where
  isdisposed : Bool
  clearCount : Nat
  deriving DecidableEq

/-- Dispose of the Subscription returned by `interval(period)` (lines
394-399): `if (!isdisposed) { clearInterval(intervalHandler); isdisposed
= true; }` — `clearCount` counts the `clearInterval` executions. -/
def intervalDispose (s : IntervalState) : IntervalState :=
  if s.isdisposed then s
  else { isdisposed := true, clearCount := s.clearCount + 1 }

structure ListenerState where
  isdisposed : Bool
  removeCount : Nat
  deriving DecidableEq

/-- Dispose of the Subscription returned by `fromEvent(element, name)`
(lines 461-466): `if (!isdisposed) { element.removeEventListener(...);
isdisposed = true; }` — `removeCount` counts the removals. -/
def fromEventDispose (s : ListenerState) : ListenerState :=
  if s.isdisposed then s
  else { isdisposed := true, removeCount := s.removeCount + 1 }

/-- The base `Subscription.dispose` (reactive.ts lines 82-84): the public
callable is exactly the stored action; calling it always runs the
action. -/
def subscriptionDispose {σ : Type} (action : σ → σ) : σ → σ := action

/-- Claim C8: for every creation function's Subscription, disposal is
idempotent — from any state, a second dispose after a first is a no-op,
and the guarded teardown (clearing the interval timer, removing the
event listener) runs at most once across both calls; whereas the base
Subscription type adds no guard: with a counting action, two dispose
calls run the action twice. -/
theorem c8_dispose_guards :
    (∀ s : FlagState, emptyDispose (emptyDispose s) = emptyDispose s) ∧
    (∀ s : FlagState, ofDispose (ofDispose s) = ofDispose s) ∧
    (∀ s : FlagState, fromDispose (fromDispose s) = fromDispose s) ∧
    (∀ s : IntervalState,
      intervalDispose (intervalDispose s) = intervalDispose s) ∧
    (∀ s : IntervalState,
      (intervalDispose (intervalDispose s)).clearCount ≤ s.clearCount + 1) ∧
    (∀ s : ListenerState,
      fromEventDispose (fromEventDispose s) = fromEventDispose s) ∧
    (∀ s : ListenerState,
      (fromEventDispose (fromEventDispose s)).removeCount ≤
        s.removeCount + 1) ∧
    subscriptionDispose (fun n : Nat => n + 1)
      (subscriptionDispose (fun n : Nat => n + 1) 0) = 2 := by
  refine ⟨?_, ?_, ?_, ?_, ?_, ?_, ?_, rfl⟩
  · intro s; rcases s with ⟨d⟩; cases d <;> simp [emptyDispose]
  · intro s; rcases s with ⟨d⟩; cases d <;> simp [ofDispose]
  · intro s; rcases s with ⟨d⟩; cases d <;> simp [fromDispose]
  · intro s; rcases s with ⟨d, c⟩; cases d <;> simp [intervalDispose]
  · intro s; rcases s with ⟨d, c⟩; cases d <;> simp [intervalDispose]
  · intro s; rcases s with ⟨d, c⟩; cases d <;> simp [fromEventDispose]
  · intro s; rcases s with ⟨d, c⟩; cases d <;> simp [fromEventDispose]

/-- The deferred timer body of `of(value)` (reactive.ts lines 319-322):
`observer.next(value); observer.complete();`.  The captured `isdisposed`
flag is in scope but is never consulted, so the body is constant in
it. -/
def ofTask {α : Type} (v : α) (_isdisposed : Bool) : List (Event α) :=
  [Event.next v, Event.complete]

/-- Claim C9: disposing `of(value)`'s Subscription before the deferred
timer fires does not prevent delivery — the flag is set, but the timer
body never consults it and disposal does not cancel the timer, so the
subscriber still receives `next(value)` then `complete()`, exactly once
each; unlike `from`, whose deferred loop checks the flag and, once it is
set, emits nothing and never completes. -/
theorem c9_of_ignores_dispose {α : Type} (v : α) (vs : List α) :
    ofTask v (ofDispose ⟨false⟩).isdisposed = [Event.next v, Event.complete] ∧
    countNext (ofTask v (ofDispose ⟨false⟩).isdisposed) = 1 ∧
    countComplete (ofTask v (ofDispose ⟨false⟩).isdisposed) = 1 ∧
    (fromDispose ⟨false⟩).isdisposed = true ∧
    fromTask (idSink α) vs () (fromDispose ⟨false⟩).isdisposed = [] := by
  refine ⟨rfl, rfl, rfl, rfl, ?_⟩
  have hd : (fromDispose ⟨false⟩).isdisposed = true := rfl
  rw [hd]
  exact fromTask_disposed (idSink α) vs ()

/-! ### `take` on a synchronous upstream (C10)

In `take(n)` (reactive.ts lines 110-137) the upstream subscription is
bound by `const subscription = this.subscribe(...)`.  If the upstream
delivers values synchronously, during that `this.subscribe(...)` call,
the value handler runs before the binding is initialized; on the n-th
value the handler executes `subscription.dispose()` and faults
(temporal-dead-zone ReferenceError), aborting the upstream's synchronous
delivery loop.  The model returns the events emitted downstream before
the fault and whether the fault occurred. -/

/-- `take(n)`'s value handler for a value arriving synchronously during
`this.subscribe`: as in `takeSink`, but the dispose request in the
`i === n - 1` branch hits the unassigned `subscription` binding — a
fault. -/
def takeOnNextSync {α : Type} (n i : Int) (v : α) : List (Event α) × Bool :=
  ((if i < n - 1 then [Event.next v] else []) ++
   (if i = n - 1 then [Event.next v, Event.complete] else []),
   decide (i = n - 1))

/-- Synchronous delivery of `vs` to `take(n)`'s handler during the
upstream subscribe call, starting at counter `i`: on a fault the
exception propagates and aborts the rest of the upstream loop. -/
def takeSyncRun {α : Type} (n : Int) : List α → Int → List (Event α) × Bool
  | [], _ => ([], false)
  | v :: vs, i =>
    let r := takeOnNextSync n i v
    if r.2 then (r.1, true)
    else
      let rest := takeSyncRun n vs (i + 1)
      (r.1 ++ rest.1, rest.2)

theorem takeSyncRun_fault {α : Type} :
    ∀ (vs : List α) (n i : Int),
      0 ≤ n - 1 - i → n - 1 - i < (vs.length : Int) →
      takeSyncRun n vs i =
        ((vs.take (n - i).toNat).map Event.next ++ [Event.complete], true) := by
  intro vs
  induction vs with
  | nil =>
    intro n i h1 h2
    simp at h2
    omega
  | cons v vs ih =>
    intro n i h1 h2
    rcases eq_or_lt_of_le h1 with heq | hlt
    · have he : i = n - 1 := by omega
      have hnlt : ¬ i < n - 1 := by omega
      have htn : (n - i).toNat = 1 := by omega
      simp [takeSyncRun, takeOnNextSync, he, hnlt, htn]
    · have hne : ¬ i = n - 1 := by omega
      have hlt2 : i < n - 1 := by omega
      have htn : (n - i).toNat = (n - (i + 1)).toNat + 1 := by omega
      rw [takeSyncRun]
      simp only [takeOnNextSync, if_pos hlt2, if_neg hne,
        decide_eq_false hne, List.append_nil, Bool.false_eq_true, if_false]
      rw [ih n (i + 1) (by omega) (by simp at h2 ⊢; omega), htn]
      simp

theorem takeSyncRun_safe {α : Type} :
    ∀ (vs : List α) (n i : Int),
      (vs.length : Int) ≤ n - 1 - i →
      takeSyncRun n vs i = (vs.map Event.next, false) := by
  intro vs
  induction vs with
  | nil => intro n i _; rfl
  | cons v vs ih =>
    intro n i h
    have hlen : ((v :: vs).length : Int) = (vs.length : Int) + 1 := by simp
    have hlt : i < n - 1 := by omega
    have hne : ¬ i = n - 1 := by omega
    rw [takeSyncRun]
    simp only [takeOnNextSync, if_pos hlt, if_neg hne,
      decide_eq_false hne, List.append_nil, Bool.false_eq_true, if_false]
    rw [ih n (i + 1) (by omega)]
    simp

/-- Claim C10: for `n ≥ 1`, if the upstream synchronously delivers `n`
or more values to `take(n)`'s handler before its subscribe call returns,
the handler faults on the n-th value — after emitting the first `n`
values and the completion, the `subscription.dispose()` call hits the
not-yet-assigned binding; with fewer than `n` synchronous values no
dispose is attempted and no fault occurs, so `take` is safe only when
the upstream defers its n-th emission past subscribe's return. -/
theorem c10_take_sync {α : Type} (n : Nat) (vs : List α) :
    (1 ≤ n → n ≤ vs.length →
      takeSyncRun (n : Int) vs 0 =
        ((vs.take n).map Event.next ++ [Event.complete], true)) ∧
    (vs.length < n →
      takeSyncRun (n : Int) vs 0 = (vs.map Event.next, false)) := by
  constructor
  · intro h1 h2
    have h := takeSyncRun_fault vs (n : Int) 0 (by omega)
      (by simp; omega)
    have hn : ((n : Int) - 0).toNat = n := by omega
    rwa [hn] at h
  · intro h
    exact takeSyncRun_safe vs (n : Int) 0 (by simp; omega)

/-- Witness for Claim C10: `take(2)` receiving `[10, 20, 30]`
synchronously emits `10`, `20`, `complete` and faults on the second
value; `take(9)` on the same synchronous values emits them all and does
not fault. -/
theorem c10_take_sync_witness :
    1 ≤ 2 ∧ 2 ≤ ([10, 20, 30] : List Nat).length ∧
    takeSyncRun (2 : Int) ([10, 20, 30] : List Nat) 0 =
      ([Event.next 10, Event.next 20, Event.complete], true) ∧
    takeSyncRun (9 : Int) ([10, 20, 30] : List Nat) 0 =
      ([Event.next 10, Event.next 20, Event.next 30], false) := by
  refine ⟨by decide, by decide, ?_, ?_⟩
  · have h := (c10_take_sync 2 ([10, 20, 30] : List Nat)).1
      (by decide) (by decide)
    simpa using h
  · have h := (c10_take_sync 9 ([10, 20, 30] : List Nat)).2 (by decide)
    simpa using h

end Reactive
